import Mathlib

/-
Verification of the Modus logic/resolution core against its design document.

The development shallowly embeds the Rust sources:
  src/logic.rs      : terms, literals, clauses, signatures
  src/builtin.rs    : builtin predicates (string_concat modes, run, from)
  src/sld.rs        : the SLD engine, solutions, proofs
  src/translate.rs  : format-string lowering, surface-clause lowering

Rust strings are modelled as lists of characters; the process-wide
fresh-variable counter is threaded explicitly; recursion that Rust bounds
by the depth parameter is expressed with an explicit fuel argument
(structural recursion), with the fuel proved sufficient.

Parts of the crate that the sources reference but that are not in the
source tree (the unification module, the groundness analysis, the newer
surface AST and its parsers) are modelled from the design document; each
such definition carries a doc comment starting with
"Modelled from the spec:".
-/

namespace Modus

/-- Characters that carry special meaning in format strings, written by
code point so they never appear literally in the file. -/
def dollarChar : Char := Char.ofNat 36

def backslashChar : Char := Char.ofNat 92

def lbraceChar : Char := Char.ofNat 123

def rbraceChar : Char := Char.ofNat 125

/-- A Rust String value (constants, format-string contents), modelled as a
list of characters. -/
abbrev Str := List Char

/-- IRTerm from src/logic.rs: constants, user variables, auxiliary
variables generated by lowering, and renamed variables generated when a
clause is applied. -/
inductive IRTerm where
  | Constant : Str → IRTerm
  | UserVariable : String → IRTerm
  | AuxiliaryVariable : Nat → IRTerm
  | RenamedVariable : Nat → IRTerm → IRTerm
deriving DecidableEq

/-- is_ground from src/logic.rs: a term is ground iff it is a constant. -/
def IRTerm.isConst : IRTerm → Bool
  | .Constant _ => true
  | _ => false

/-- SpannedPosition from src/logic.rs, restricted to the fields the engine
reads when building a diagnostic (line and column are not consumed by the
core). -/
structure SpannedPosition where
  offset : Nat
  length : Nat
deriving DecidableEq

/-- Literal from src/logic.rs: an optional source position, a predicate
symbol and an argument list. -/
structure Literal where
  position : Option SpannedPosition
  predicate : String
  args : List IRTerm
deriving DecidableEq

/-- Signature from src/logic.rs: predicate symbol paired with arity. -/
abbrev Signature := String × Nat

def Literal.signature (l : Literal) : Signature := (l.predicate, l.args.length)

/-- variables of a literal (src/logic.rs): every non-constant argument. -/
def Literal.vars (l : Literal) : List IRTerm := l.args.filter (fun t => !t.isConst)

/-- is_ground for literals (src/logic.rs): no variables among the arguments. -/
def Literal.isGround (l : Literal) : Bool := l.args.all IRTerm.isConst

/-- Clause from src/logic.rs: head literal and body literals. -/
structure Clause where
  head : Literal
  body : List Literal
deriving DecidableEq

/-- Modelled from the spec: substitutions (unification.rs is not in the
source tree).  A finite mapping from variables to terms, kept as an
association list with first-match lookup. -/
abbrev Substitution := List (IRTerm × IRTerm)

/-- First-match lookup in an association list. -/
def alookup {α β : Type} [DecidableEq α] : List (α × β) → α → Option β
  | [], _ => none
  | p :: rest, k => if p.1 = k then some p.2 else alookup rest k

/-- Modelled from the spec: applying a substitution to a term.  Constants
are fixed; a variable is replaced by its binding when one exists. -/
def applyTerm (s : Substitution) (t : IRTerm) : IRTerm :=
  match t with
  | .Constant c => .Constant c
  | v => (alookup s v).getD v

/-- Applying a substitution to a literal maps it over the arguments and
keeps the source position. -/
def applyLit (s : Substitution) (l : Literal) : Literal :=
  ⟨l.position, l.predicate, l.args.map (applyTerm s)⟩

/-- Modelled from the spec: compose_extend from unification.rs.  Bindings
of the first substitution are transformed by the second, then bindings of
the second whose key is not bound by the first are appended. -/
def compose_extend (s1 s2 : Substitution) : Substitution :=
  s1.map (fun p => (p.1, applyTerm s2 p.2)) ++
    s2.filter (fun p => (alookup s1 p.1).isNone)

/-- Modelled from the spec: compose_no_extend from unification.rs.  Same
transformation but keys not already bound by the first substitution are
dropped. -/
def compose_no_extend (s1 s2 : Substitution) : Substitution :=
  s1.map (fun p => (p.1, applyTerm s2 p.2))

/-- Modelled from the spec: term-pair unification loop from
unification.rs.  The accumulated most-general unifier is applied to each
pair before the case split; equal constants are dropped, differing
constants fail, and a variable is bound to the opposite term (terms are
flat, so no occurs check is needed). -/
def unifyGo : List (IRTerm × IRTerm) → Substitution → Option Substitution
  | [], s => some s
  | p :: rest, s =>
    match applyTerm s p.1, applyTerm s p.2 with
    | .Constant c1, .Constant c2 =>
        if c1 = c2 then unifyGo rest s else none
    | .Constant c1, y => unifyGo rest (compose_extend s [(y, .Constant c1)])
    | x, y =>
        if x = y then unifyGo rest s
        else unifyGo rest (compose_extend s [(x, y)])

/-- Modelled from the spec: literal unification from unification.rs.
Succeeds only on equal signatures, then unifies the argument pairs
left to right. -/
def unifyLit (a b : Literal) : Option Substitution :=
  if a.predicate = b.predicate ∧ a.args.length = b.args.length then
    unifyGo (a.args.zip b.args) []
  else none

/-- Variables of a clause (src/logic.rs collects them as a set; the
enumeration order is fixed here as first occurrence, head before body). -/
def clauseVars (c : Clause) : List IRTerm :=
  ((c.head.args ++ c.body.flatMap Literal.args).filter (fun t => !t.isConst)).dedup

/-- Modelled from the spec: rename_with_sub from unification.rs.  Every
variable of the clause is replaced by a RenamedVariable carrying a fresh
id from the global counter; the renaming substitution and the advanced
counter are returned. -/
def renameClause (c : Clause) (ctr : Nat) : Clause × Substitution × Nat :=
  let vs := clauseVars c
  let ren : Substitution :=
    vs.enum.map (fun p => (p.2, IRTerm.RenamedVariable (ctr + p.1) p.2))
  (⟨applyLit ren c.head, c.body.map (applyLit ren)⟩, ren, ctr + vs.length)

/-! Builtin predicates, from src/builtin.rs. -/

def scName : String := "string_concat"

def runName : String := "run"

def fromName : String := "from"

/-- Removing a leading block from a list: dropStart a c = some b iff
c = a ++ b.  This is the semantics of str::strip_prefix as used by
StringConcat3 in src/builtin.rs. -/
def dropStart : Str → Str → Option Str
  | [], cs => some cs
  | _ :: _, [] => none
  | a :: as, c :: cs => if a = c then dropStart as cs else none

/-- Removing a trailing block from a list: the semantics of
str::strip_suffix as used by StringConcat2 in src/builtin.rs. -/
def dropEnd (b c : Str) : Option Str :=
  (dropStart b.reverse c.reverse).map List.reverse

/-- as_str_const from src/builtin.rs, on IR terms: only constants carry a
string value. -/
def asStrConst : IRTerm → Option Str
  | .Constant c => some c
  | _ => none

/-- The five builtin modes of src/builtin.rs in declaration order. -/
inductive BuiltinKind where
  | sc1 | sc2 | sc3 | runB | fromB
deriving DecidableEq

def builtinName : BuiltinKind → String
  | .sc1 => scName
  | .sc2 => scName
  | .sc3 => scName
  | .runB => runName
  | .fromB => fromName

/-- arg_groundness masks from src/builtin.rs (true means a variable is
allowed at the position). -/
def argGroundness : BuiltinKind → List Bool
  | .sc1 => [false, false, true]
  | .sc2 => [true, false, false]
  | .sc3 => [false, true, false]
  | .runB => [false]
  | .fromB => [false]

/-- The mask check of BuiltinPredicate::select from src/builtin.rs: no
false-masked position may hold a variable (the zip truncates at the
shorter list, exactly as in the source). -/
def maskOk (mask : List Bool) (l : Literal) : Bool :=
  (l.args.zip mask).all (fun p => !(!p.1.isConst && !p.2))

/-- BuiltinPredicate::select from src/builtin.rs: the name must match and
the groundness mask must accept the arguments. -/
def builtinSelect (b : BuiltinKind) (l : Literal) : Bool :=
  builtinName b = l.predicate && maskOk (argGroundness b) l

/-- string_concat_result from src/builtin.rs: the fabricated head literal
(the builtin literal type carries no position). -/
def scResult (a b c : Str) : Literal :=
  ⟨none, scName, [.Constant a, .Constant b, .Constant c]⟩

/-- BuiltinPredicate::apply for each mode, from src/builtin.rs.
Out-of-range argument access (a panic in Rust) is modelled as failure;
no claim exercises that path. -/
def builtinApply : BuiltinKind → Literal → Option Literal
  | .sc1, l =>
    (l.args.get? 0).bind asStrConst |>.bind (fun a =>
      (l.args.get? 1).bind asStrConst |>.map (fun b => scResult a b (a ++ b)))
  | .sc2, l =>
    (l.args.get? 1).bind asStrConst |>.bind (fun b =>
      (l.args.get? 2).bind asStrConst |>.bind (fun c =>
        (dropEnd b c).map (fun a => scResult a b c)))
  | .sc3, l =>
    (l.args.get? 0).bind asStrConst |>.bind (fun a =>
      (l.args.get? 2).bind asStrConst |>.bind (fun c =>
        (dropStart a c).map (fun b => scResult a b c)))
  | .runB, l =>
    match l.args.get? 0 with
    | some (.Constant _) => some l
    | _ => none
  | .fromB, l =>
    match l.args.get? 0 with
    | some (.Constant _) => some l
    | _ => none

def builtinOrder : List BuiltinKind := [.sc1, .sc2, .sc3, .runB, .fromB]

/-- Modelled from the spec: the three-way outcome of builtin dispatch
(src/sld.rs consumes this shape; the builtin.rs in the tree still returns
a plain Option, and the design document fixes the three-way form). -/
inductive SelectBuiltinResult where
  | Match : BuiltinKind → SelectBuiltinResult
  | GroundnessMismatch
  | NoMatch
deriving DecidableEq

def SelectBuiltinResult.isMatch : SelectBuiltinResult → Bool
  | .Match _ => true
  | _ => false

/-- Modelled from the spec: select_builtin.  The first mode in declaration
order whose select passes wins; if none passes but some mode owns the
name, the outcome is GroundnessMismatch; otherwise NoMatch. -/
def select_builtin (l : Literal) : SelectBuiltinResult :=
  match builtinOrder.find? (fun b => builtinSelect b l) with
  | some b => .Match b
  | none =>
    if builtinOrder.any (fun b => builtinName b = l.predicate) then
      .GroundnessMismatch
    else .NoMatch

/-! The SLD engine, from src/sld.rs. -/

/-- ClauseId from src/sld.rs: a resolvent comes from a program rule, from
the query itself, or from a builtin with its fabricated head. -/
inductive ClauseId where
  | Rule : Nat → ClauseId
  | Query
  | Builtin : Literal → ClauseId
deriving DecidableEq

/-- LiteralOrigin from src/sld.rs. -/
structure LiteralOrigin where
  clause : ClauseId
  body_index : Nat
deriving DecidableEq

/-- LiteralWithHistory from src/sld.rs. -/
structure LiteralWithHistory where
  literal : Literal
  introduction : Nat
  origin : LiteralOrigin
deriving DecidableEq

abbrev GoalWithHistory := List LiteralWithHistory

def applyLWH (s : Substitution) (l : LiteralWithHistory) : LiteralWithHistory :=
  ⟨applyLit s l.literal, l.introduction, l.origin⟩

/-- An SLD tree (src/sld.rs): the goal with history, the level, and the
resolvent map.  The Rust HashMap is modelled as a list in insertion
order. -/
inductive Tree where
  | mk : GoalWithHistory → Nat →
      List ((Nat × ClauseId) × (Substitution × Substitution × Tree)) → Tree

def Tree.goal : Tree → GoalWithHistory
  | .mk g _ _ => g

def Tree.level : Tree → Nat
  | .mk _ l _ => l

def Tree.resolvents :
    Tree → List ((Nat × ClauseId) × (Substitution × Substitution × Tree))
  | .mk _ _ r => r

/-- Groundness requirements per signature, produced outside the engine.
Modelled from the spec: the wellformed module that derives it from the
rules is not in the source tree, so the engine takes the map as an input,
as the design document's interface section describes. -/
abbrev GroundedMap := List (Signature × List Bool)

/-- Severity of a diagnostic (only errors are produced by the core). -/
inductive Severity where
  | error
deriving DecidableEq

/-- A primary label: a source range. -/
structure Label where
  start : Nat
  stop : Nat
deriving DecidableEq

/-- Diagnostic record as built in src/sld.rs via codespan. -/
structure Diagnostic where
  severity : Severity
  message : String
  labels : List Label
deriving DecidableEq

def unknownPredMsg : String := "unknown predicate"

/-- The diagnostic built by select in src/sld.rs for an unknown
predicate: severity error, fixed message, one primary label spanning the
literal's recorded position. -/
def unknownPredDiag (p : SpannedPosition) : Diagnostic :=
  ⟨.error, unknownPredMsg, [⟨p.offset, p.offset + p.length⟩]⟩

/-- Outcome of the literal-selection scan in src/sld.rs.  The source
unwraps the literal's optional position when building the diagnostic;
that panic is modelled as the explicit outcome spanic. -/
inductive SelectOut where
  | sok : Option (Nat × LiteralWithHistory) → SelectOut
  | serr : Diagnostic → SelectOut
  | spanic
deriving DecidableEq

def groundnessOk (args : List IRTerm) (mask : List Bool) : Bool :=
  (args.zip mask).all (fun p => p.2 || p.1.isConst)

/-- select from src/sld.rs: scan for the leftmost admissible literal.
Builtin matches are admissible; known user predicates are admissible when
their groundness requirement is satisfied; groundness failures are
skipped; anything else raises the unknown-predicate diagnostic (a panic
when the literal has no recorded position). -/
def selectGo (grounded : GroundedMap) : List LiteralWithHistory → Nat → SelectOut
  | [], _ => .sok none
  | lwh :: rest, i =>
    if (select_builtin lwh.literal).isMatch then .sok (some (i, lwh))
    else
      match alookup grounded lwh.literal.signature with
      | some mask =>
        if groundnessOk lwh.literal.args mask then .sok (some (i, lwh))
        else selectGo grounded rest (i + 1)
      | none =>
        if select_builtin lwh.literal = .GroundnessMismatch then
          selectGo grounded rest (i + 1)
        else
          match lwh.literal.position with
          | some p => .serr (unknownPredDiag p)
          | none => .spanic

/-- resolve from src/sld.rs: remove the selected literal, append the body
literals of the applied clause with their history, then apply the mgu to
the whole new goal. -/
def resolve (lid : Nat) (rid : ClauseId) (goal : GoalWithHistory)
    (mgu : Substitution) (rule : Clause) (level : Nat) : GoalWithHistory :=
  ((goal.eraseIdx lid) ++
      rule.body.enum.map
        (fun p => (⟨p.2, level, ⟨rid, p.1⟩⟩ : LiteralWithHistory))).map
    (applyLWH mgu)

/-- Result of the engine: the Ok(None)/Ok(Some) and Err channels of
src/sld.rs, plus an explicit marker for the modelled position-unwrap
panic and one for fuel exhaustion (proved unreachable for the fuel the
engine passes). -/
inductive EngineOut where
  | done : Option Tree → Nat → EngineOut
  | fail : Diagnostic → EngineOut
  | panicked
  | outOfFuel

/-- Result of accumulating the resolvent map of one node. -/
inductive RsOut where
  | rdone : List ((Nat × ClauseId) × (Substitution × Substitution × Tree)) →
      Nat → RsOut
  | rfail : Diagnostic → RsOut
  | rpanic
  | rfuel

/-- The user-rule part of resolvent enumeration in inner (src/sld.rs):
rules are scanned in program order, those matching the selected literal's
signature are renamed (advancing the global counter) and unified; each
successful resolvent is explored at once and inserted into the map when a
subtree comes back.  Errors abort the whole computation. -/
def goRules (child : GoalWithHistory → Nat → EngineOut) (lid : Nat)
    (goal : GoalWithHistory) (level : Nat) (lit : Literal) :
    List (Nat × Clause) → Nat →
    List ((Nat × ClauseId) × (Substitution × Substitution × Tree)) → RsOut
  | [], ctr, acc => .rdone acc ctr
  | rc :: rest, ctr, acc =>
    if rc.2.head.signature = lit.signature then
      let r := renameClause rc.2 ctr
      match unifyLit r.1.head lit with
      | none => goRules child lid goal level lit rest r.2.2 acc
      | some mgu =>
        match child (resolve lid (.Rule rc.1) goal mgu r.1 (level + 1)) r.2.2 with
        | .done none ctr2 => goRules child lid goal level lit rest ctr2 acc
        | .done (some t) ctr2 =>
          goRules child lid goal level lit rest ctr2
            (acc ++ [((lid, .Rule rc.1), (mgu, r.2.1, t))])
        | .fail d => .rfail d
        | .panicked => .rpanic
        | .outOfFuel => .rfuel
    else goRules child lid goal level lit rest ctr acc

/-- Resolvent enumeration of one node (src/sld.rs): the builtin resolvent,
when the dispatcher matches and apply plus unification succeed, is
explored first with an empty renaming; then the user rules follow. -/
def buildResolvents (child : GoalWithHistory → Nat → EngineOut)
    (rules : List Clause) (lid : Nat) (l : LiteralWithHistory)
    (goal : GoalWithHistory) (level : Nat) (ctr : Nat) : RsOut :=
  let bres : Option (Literal × Substitution × GoalWithHistory) :=
    match select_builtin l.literal with
    | .Match b =>
      (builtinApply b l.literal).bind (fun cand =>
        (unifyLit cand l.literal).map (fun mgu =>
          (cand, mgu, resolve lid (.Builtin cand) goal mgu ⟨cand, []⟩ (level + 1))))
    | _ => none
  match bres with
  | none => goRules child lid goal level l.literal rules.enum ctr []
  | some bi =>
    match child bi.2.2 ctr with
    | .done none ctr1 => goRules child lid goal level l.literal rules.enum ctr1 []
    | .done (some t) ctr1 =>
      goRules child lid goal level l.literal rules.enum ctr1
        [((lid, .Builtin bi.1), (bi.2.1, [], t))]
    | .fail d => .rfail d
    | .panicked => .rpanic
    | .outOfFuel => .rfuel

/-- inner from src/sld.rs, with explicit fuel (the recursion that Rust
bounds through the level/maxdepth comparison).  An empty goal is a
success leaf; at or beyond the depth bound the search reports no proof;
otherwise the leftmost admissible literal is selected, its resolvents are
explored, and a node is returned when at least one subtree succeeded. -/
def innerF : Nat → List Clause → Nat → GroundedMap → Nat → GoalWithHistory →
    Nat → EngineOut
  | 0, _, _, _, _, _, _ => .outOfFuel
  | fuel + 1, rules, maxd, grounded, level, goal, ctr =>
    if goal = [] then .done (some (.mk goal level [])) ctr
    else if maxd ≤ level then .done none ctr
    else
      match selectGo grounded goal 0 with
      | .spanic => .panicked
      | .serr d => .fail d
      | .sok none => .done none ctr
      | .sok (some sel) =>
        match buildResolvents (innerF fuel rules maxd grounded (level + 1))
            rules sel.1 sel.2 goal level ctr with
        | .rdone rs ctrF =>
          if rs.isEmpty then .done none ctrF
          else .done (some (.mk goal level rs)) ctrF
        | .rfail d => .fail d
        | .rpanic => .panicked
        | .rfuel => .outOfFuel

/-- The original goal is wrapped with introduction level 0 and Query
origins (src/sld.rs). -/
def wrapGoal (goal : List Literal) : GoalWithHistory :=
  goal.enum.map (fun p => ⟨p.2, 0, ⟨.Query, p.1⟩⟩)

/-- sld from src/sld.rs.  The groundness map is an input (its derivation
lives outside the modelled core) and the global fresh-variable counter is
threaded explicitly.  The fuel maxdepth+1 is sufficient (proved below). -/
def sld (rules : List Clause) (goal : List Literal) (maxdepth : Nat)
    (grounded : GroundedMap) (ctr : Nat) : EngineOut :=
  innerF (maxdepth + 1) rules maxdepth grounded 0 (wrapGoal goal) ctr

/-! Answer extraction, from src/sld.rs. -/

/-- The substitution-collection pass of solutions (src/sld.rs), with fuel
for the tree recursion.  A leaf with an empty goal yields the empty
substitution; otherwise each resolvent contributes its subtree's
substitutions composed under the resolvent's mgu. -/
def solutionsInnerF : Nat → Tree → List Substitution
  | 0, _ => []
  | fuel + 1, t =>
    if t.goal = [] then [[]]
    else
      (t.resolvents.map (fun r =>
        (solutionsInnerF fuel r.2.2.2).map
          (fun s => compose_extend r.2.1 s))).flatten

/-- solutions from src/sld.rs: apply each collected substitution to the
root goal.  The Rust HashSet is modelled as the list of answers;
membership is what the claims consume. -/
def solutionsListF (fuel : Nat) (t : Tree) : List (List Literal) :=
  (solutionsInnerF fuel t).map (fun s =>
    t.goal.map (fun lwh => applyLit s lwh.literal))

/-! Proof extraction, from src/sld.rs. -/

/-- PathNode from src/sld.rs: the resolvent snapshot, the applied clause,
the index selected in the parent goal, and the renaming used. -/
structure PathNode where
  resolvent : GoalWithHistory
  applied : ClauseId
  selected : Nat
  renamingSub : Substitution
deriving DecidableEq

def defaultPathNode : PathNode := ⟨[], .Query, 0, []⟩

def defaultLWH : LiteralWithHistory := ⟨⟨none, "", []⟩, 0, ⟨.Query, 0⟩⟩

/-- flatten_compose from src/sld.rs, with fuel for the tree recursion:
enumerate every root-to-leaf path through the resolvent maps, pairing the
node list with the composed mgu. -/
def flattenComposeF : Nat → Nat → ClauseId → Substitution → Substitution →
    Tree → List (List PathNode × Substitution)
  | 0, _, _, _, _, _ => []
  | fuel + 1, lid, cid, mgu, ren0, t =>
    if t.goal = [] then [([⟨t.goal, cid, lid, ren0⟩], mgu)]
    else
      (t.resolvents.map (fun r =>
        (flattenComposeF fuel r.1.1 r.1.2 r.2.1 r.2.2.1 r.2.2.2).map
          (fun pv =>
            ((⟨t.goal, cid, lid, ren0⟩ : PathNode) :: pv.1,
              compose_extend mgu pv.2)))).flatten

/-- Proof from src/sld.rs: applied clause, valuation, child proofs. -/
inductive Proof where
  | mk : ClauseId → Substitution → List Proof → Proof

def Proof.clause : Proof → ClauseId
  | .mk c _ _ => c

def Proof.valuation : Proof → Substitution
  | .mk _ v _ => v

def Proof.children : Proof → List Proof
  | .mk _ _ c => c

/-- Association-list insert with overwrite (HashMap::insert). -/
def ainsert {α β : Type} [DecidableEq α] (l : List (α × β)) (k : α) (v : β) :
    List (α × β) :=
  if (alookup l k).isSome then
    l.map (fun p => if p.1 = k then (k, v) else p)
  else l ++ [(k, v)]

/-- The sublevels map built by proof_for_level (src/sld.rs): for every
step whose resolvent is nonempty, look at the literal selected by the
next step; when it was introduced at the reconstructed level, record its
body index against the next step.  Rust's out-of-range indexing panics
are modelled with defaults; they are invariant violations the design
document places outside the recoverable behaviour. -/
def sublevelsMap (path : List PathNode) (level : Nat) : List (Nat × Nat) :=
  (List.range path.length).foldl
    (fun acc l =>
      let node := path.getD l defaultPathNode
      if node.resolvent = [] then acc
      else
        let rc := node.resolvent.getD
          (path.getD (l + 1) defaultPathNode).selected defaultLWH
        if rc.introduction = level then
          ainsert acc rc.origin.body_index (l + 1)
        else acc)
    []

/-- proof_for_level from src/sld.rs, with fuel for the recursion into
child levels (each recursive call moves to a strictly larger step index,
so the path length bounds the recursion).  The valuation re-projects the
final mgu through the step's renaming with compose_no_extend.  The
source's debug assertions on child counts are omitted. -/
def proofForLevel (path : List PathNode) (mgu : Substitution) :
    Nat → Nat → Proof
  | 0, level =>
    .mk (path.getD level defaultPathNode).applied
      (compose_no_extend (path.getD level defaultPathNode).renamingSub mgu) []
  | fuel + 1, level =>
    let m := sublevelsMap path level
    let children := (List.range m.length).map
      (fun i => proofForLevel path mgu fuel ((alookup m i).getD 0))
    .mk (path.getD level defaultPathNode).applied
      (compose_no_extend (path.getD level defaultPathNode).renamingSub mgu)
      children

/-- The variables of the original goal, in first-occurrence order (the
source collects them as a HashSet; only membership matters because they
key an identity renaming). -/
def goalVarList (goal : List Literal) : List IRTerm :=
  (goal.flatMap Literal.vars).dedup

/-- The final de-duplication loop of proofs (src/sld.rs): keep the first
proof for each distinct projected goal. -/
def dedupProofs (goal : List Literal) : List Proof → List (List Literal) →
    List Proof
  | [], _ => []
  | p :: rest, computed =>
    let sol := goal.map (applyLit p.valuation)
    if sol ∈ computed then dedupProofs goal rest computed
    else p :: dedupProofs goal rest (sol :: computed)

/-- proofs from src/sld.rs: flatten the tree into paths rooted at the
query with an identity renaming on the goal variables, reconstruct a
proof per path, and de-duplicate by projected goal.  The same fuel feeds
the path enumeration and the proof reconstruction. -/
def proofsF (fuel : Nat) (t : Tree) (goal : List Literal) : List Proof :=
  let goalIdRenaming : Substitution := (goalVarList goal).map (fun v => (v, v))
  let paths := flattenComposeF fuel 0 .Query [] goalIdRenaming t
  let allProofs := paths.map (fun pv => proofForLevel pv.1 pv.2 fuel 0)
  dedupProofs goal allProofs []

/-! Format-string lowering, from src/translate.rs. -/

/-- Modelled from the spec: outside_format_expansion, the parser (not in
the source tree) that consumes the longest prefix of a format string in
which the dollar sign appears only in the escape backslash-dollar;
returns the consumed prefix and the rest. -/
def outside_format_expansion : Str → Str × Str
  | [] => ([], [])
  | [c] => if c = dollarChar then ([], [c]) else ([c], [])
  | c :: c2 :: rest =>
    if c = backslashChar ∧ c2 = dollarChar then
      let p := outside_format_expansion rest
      (c :: c2 :: p.1, p.2)
    else if c = dollarChar then ([], c :: c2 :: rest)
    else
      let p := outside_format_expansion (c2 :: rest)
      (c :: p.1, p.2)

/-- Character class of modus_var identifiers after the leading letter. -/
def identChar (c : Char) : Bool := c.isAlphanum || c = '_' || c = '-'

/-- Modelled from the spec: the delimited dollar-brace modus_var brace
parser of the expansion syntax (the surface parser is not in the source
tree): a dollar and opening brace, an identifier (letter then letters,
digits, underscores or hyphens), and a closing brace. -/
def parse_expansion (s : Str) : Option (String × Str) :=
  match s with
  | c1 :: c2 :: rest =>
    if c1 = dollarChar ∧ c2 = lbraceChar then
      match rest with
      | c3 :: rest2 =>
        if c3.isAlpha then
          let v := rest2.takeWhile identChar
          match rest2.dropWhile identChar with
          | c4 :: rest3 =>
            if c4 = rbraceChar then some (String.mk (c3 :: v), rest3) else none
          | [] => none
        else none
      | [] => none
    else none
  | _ => none

/-- The replace of the escape backslash-dollar by a plain dollar
performed by convert_format_string (str::replace, non-overlapping, left
to right). -/
def replace_escape : Str → Str
  | [] => []
  | [c] => [c]
  | c :: c2 :: rest =>
    if c = backslashChar ∧ c2 = dollarChar then dollarChar :: replace_escape rest
    else c :: replace_escape (c2 :: rest)

/-- One emitted string_concat literal. -/
def scLit (a b c : IRTerm) : Literal := ⟨none, scName, [a, b, c]⟩

/-- The while loop of convert_format_string (src/translate.rs), with fuel
(each iteration consumes part of the remaining input).  The loop parses
an outside segment, emits its literal with a fresh auxiliary output
variable, then tries an expansion: on success it emits the variable
literal and continues, otherwise the scan ends. -/
def fsLoopF : Nat → Str → IRTerm → List Literal → Nat →
    List Literal × IRTerm × Nat
  | 0, _, prev, acc, c => (acc, prev, c)
  | fuel + 1, curr, prev, acc, c =>
    if curr = [] then (acc, prev, c)
    else
      let p := outside_format_expansion curr
      let constantStr := replace_escape p.1
      let newVar := IRTerm.AuxiliaryVariable c
      let acc1 := acc ++ [scLit prev (.Constant constantStr) newVar]
      match parse_expansion p.2 with
      | some vr =>
        let newVar2 := IRTerm.AuxiliaryVariable (c + 1)
        fsLoopF fuel vr.2 newVar2
          (acc1 ++ [scLit newVar (.UserVariable vr.1) newVar2]) (c + 2)
      | none => (acc1, newVar, c + 1)

/-- convert_format_string from src/translate.rs: allocate the initial
auxiliary variable, emit the no-op initial literal, then run the scan
loop.  The input length plus one bounds the number of loop iterations. -/
def convert_format_string (ctr : Nat) (s : Str) : List Literal × IRTerm × Nat :=
  let prev := IRTerm.AuxiliaryVariable ctr
  fsLoopF (s.length + 1) s prev
    [scLit (.Constant []) (.Constant []) prev] (ctr + 1)

/-- The alternating decomposition of a format string that the scan loop
traverses: outside segments (escapes already replaced) and expansion
variables, left to right. -/
def fsSegmentsF : Nat → Str → List (Str ⊕ String)
  | 0, _ => []
  | fuel + 1, s =>
    if s = [] then []
    else
      let p := outside_format_expansion s
      match parse_expansion p.2 with
      | some vr => Sum.inl (replace_escape p.1) :: Sum.inr vr.1 ::
          fsSegmentsF fuel vr.2
      | none => [Sum.inl (replace_escape p.1)]

def fsSegments (s : Str) : List (Str ⊕ String) := fsSegmentsF (s.length + 1) s

/-- The term a segment contributes to its emitted literal. -/
def segTerm : Str ⊕ String → IRTerm
  | .inl seg => .Constant seg
  | .inr v => .UserVariable v

/-- The chain of string_concat literals the scan emits after the initial
one: the literal for the j-th segment links auxiliary variable base+j to
base+j+1. -/
def chainFrom (base : Nat) : List (Str ⊕ String) → List Literal
  | [] => []
  | seg :: rest =>
    scLit (.AuxiliaryVariable base) (segTerm seg) (.AuxiliaryVariable (base + 1)) ::
      chainFrom (base + 1) rest

/-! Surface-clause lowering, from src/translate.rs. -/

/-- Modelled from the spec: surface terms (the newer modusfile AST that
src/translate.rs consumes is not in the source tree). -/
inductive ModusTerm where
  | Constant : Str → ModusTerm
  | UserVariable : String → ModusTerm
  | FormatString : Str → ModusTerm
deriving DecidableEq

/-- Modelled from the spec: surface literals. -/
structure ModusLiteral where
  predicate : String
  args : List ModusTerm
deriving DecidableEq

/-- Modelled from the spec: surface expressions — a literal, an operator
application (one expression and an operator literal), a conjunction or a
disjunction. -/
inductive Expression where
  | Literal : ModusLiteral → Expression
  | OperatorApplication : Expression → ModusLiteral → Expression
  | And : Expression → Expression → Expression
  | Or : Expression → Expression → Expression
deriving DecidableEq

/-- Modelled from the spec: a surface clause, whose body is an optional
expression. -/
structure ModusClause where
  head : ModusLiteral
  body : Option Expression
deriving DecidableEq

/-- Modelled from the spec: the surface-head to IR conversion (the From
instance is not in the source tree).  Constants and user variables map to
their IR counterparts; a format string in a head is treated as the
constant holding its raw content, matching the source-tree parser that
reads f-strings as constants. -/
def lowerHeadTerm : ModusTerm → IRTerm
  | .Constant c => .Constant c
  | .UserVariable v => .UserVariable v
  | .FormatString s => .Constant s

def lowerHead (l : ModusLiteral) : Literal :=
  ⟨none, l.predicate, l.args.map lowerHeadTerm⟩

/-- The literal case of surface lowering (src/translate.rs): each
argument lowers in order, format strings contributing their literal chain
to the body prefix, and the rewritten literal is appended last. -/
def lowerBodyLiteral (l : ModusLiteral) (ctr : Nat) : List Literal × Nat :=
  let st := l.args.foldl
    (fun (st : List Literal × List IRTerm × Nat) arg =>
      match arg with
      | .Constant c => (st.1, st.2.1 ++ [IRTerm.Constant c], st.2.2)
      | .FormatString s =>
        let r := convert_format_string st.2.2 s
        (st.1 ++ r.1, st.2.1 ++ [r.2.1], r.2.2)
      | .UserVariable v => (st.1, st.2.1 ++ [IRTerm.UserVariable v], st.2.2))
    ([], [], ctr)
  (st.1 ++ [⟨none, l.predicate, st.2.1⟩], st.2.2)

/-- The expression part of the From conversion in src/translate.rs: a
literal becomes one clause; an operator application is lowered as its
inner expression; a conjunction accumulates, for every clause of the
left, a clause per clause of the right with concatenated bodies; a
disjunction concatenates the clause lists. -/
def lowerExprF (h : ModusLiteral) : Expression → Nat → List Clause × Nat
  | .Literal l, ctr =>
    let r := lowerBodyLiteral l ctr
    ([⟨lowerHead h, r.1⟩], r.2)
  | .OperatorApplication e _, ctr => lowerExprF h e ctr
  | .And e1 e2, ctr =>
    let r1 := lowerExprF h e1 ctr
    let r2 := lowerExprF h e2 r1.2
    (r1.1.foldl
      (fun acc c1 =>
        r2.1.foldl (fun acc2 c2 => acc2 ++ [⟨c1.head, c1.body ++ c2.body⟩]) acc)
      [], r2.2)
  | .Or e1 e2, ctr =>
    let r1 := lowerExprF h e1 ctr
    let r2 := lowerExprF h e2 r1.2
    (r1.1 ++ r2.1, r2.2)

/-- The From conversion of a whole surface clause (src/translate.rs): a
clause without body lowers to a single bodyless IR clause. -/
def lowerModusClause (mc : ModusClause) (ctr : Nat) : List Clause × Nat :=
  match mc.body with
  | some e => lowerExprF mc.head e ctr
  | none => ([⟨lowerHead mc.head, []⟩], ctr)

/-! Concrete example data used by the closed evaluation theorems below. -/

/-- Extracting the answers when the engine returned a tree. -/
def solutionsOf (r : EngineOut) (fuel : Nat) : Option (List (List Literal)) :=
  match r with
  | .done (some t) _ => some (solutionsListF fuel t)
  | _ => none

/-- Compatibility of a three-argument literal with at least one of the
three string_concat groundness masks. -/
def scCompatible (l : Literal) : Bool :=
  maskOk [false, false, true] l || maskOk [true, false, false] l ||
    maskOk [false, true, false] l

/-- A fully ground string_concat literal (all three arguments constants). -/
def scLit0 : Literal :=
  ⟨none, scName, [.Constant ['a'], .Constant ['b'], .Constant ['c']]⟩

/-- A run literal with a constant first argument and a stray variable. -/
def runLit : Literal := ⟨none, runName, [.Constant ['c'], .UserVariable "Y"]⟩

/-- The SLD tree the engine derives for the goal runLit. -/
def treeRun : Tree :=
  .mk [⟨runLit, 0, ⟨.Query, 0⟩⟩] 0
    [((0, .Builtin runLit), ([], [], .mk [] 1 []))]

/-- A propositional fact literal. -/
def litA : Literal := ⟨none, "a", []⟩

/-- A literal with an unknown predicate, carrying a source position. -/
def bogusLit : Literal := ⟨some ⟨7, 5⟩, "bogus", [.Constant ['x']]⟩

/-- Rules for the depth-monotonicity failure: a fact for the goal and a
second clause whose body mentions an unknown predicate. -/
def rulesC3 : List Clause := [⟨litA, []⟩, ⟨litA, [bogusLit]⟩]

/-- Groundness map knowing only the goal predicate. -/
def mapC3 : GroundedMap := [(("a", 0), [])]

/-- A literal with an unknown predicate and no recorded position. -/
def bogusNoPos : Literal := ⟨none, "bogus", [.Constant ['x']]⟩

/-- A fully ground string_concat goal literal. -/
def scGoalLit (pos : Option SpannedPosition) (a b c : Str) : Literal :=
  ⟨pos, scName, [.Constant a, .Constant b, .Constant c]⟩

/-! Theorems. -/

theorem dropStart_iff (a : Str) : ∀ (c b : Str),
    dropStart a c = some b ↔ c = a ++ b := by
  induction a with
  | nil => intro c b; simp [dropStart]
  | cons x xs ih =>
    intro c b
    cases c with
    | nil => simp [dropStart]
    | cons y ys =>
      by_cases hxy : x = y
      · subst hxy
        simp [dropStart, ih ys b]
      · simp [dropStart, hxy, Ne.symm hxy]

theorem dropEnd_iff (b c a : Str) : dropEnd b c = some a ↔ c = a ++ b := by
  unfold dropEnd
  rw [Option.map_eq_some']
  constructor
  · rintro ⟨x, hx, rfl⟩
    have h := (dropStart_iff b.reverse c.reverse x).mp hx
    have h2 := congrArg List.reverse h
    simpa using h2
  · intro h
    subst h
    refine ⟨a.reverse, ?_, by simp⟩
    rw [dropStart_iff]
    simp

/-- C4: the three string_concat builtin modes.  With arguments 0 and 1
ground constants, mode 1 fabricates the head with the concatenation in
position 2; with arguments 1 and 2 ground, mode 2 succeeds exactly when
the third is some string followed by the second, returning that string in
position 0, and fails otherwise; with arguments 0 and 2 ground, mode 3
succeeds exactly when the third is the first followed by some string,
returning that string in position 1, and fails otherwise.  In each
fabricated head the third argument is the concatenation of the first
two. -/
theorem string_concat_modes (a b c : Str) (t : IRTerm)
    (pos : Option SpannedPosition) :
    builtinApply .sc1 ⟨pos, scName, [.Constant a, .Constant b, t]⟩
      = some (scResult a b (a ++ b))
    ∧ (∀ a0, c = a0 ++ b →
        builtinApply .sc2 ⟨pos, scName, [t, .Constant b, .Constant c]⟩
          = some (scResult a0 b c))
    ∧ ((∀ a0, c ≠ a0 ++ b) →
        builtinApply .sc2 ⟨pos, scName, [t, .Constant b, .Constant c]⟩ = none)
    ∧ (∀ b0, c = a ++ b0 →
        builtinApply .sc3 ⟨pos, scName, [.Constant a, t, .Constant c]⟩
          = some (scResult a b0 c))
    ∧ ((∀ b0, c ≠ a ++ b0) →
        builtinApply .sc3 ⟨pos, scName, [.Constant a, t, .Constant c]⟩ = none) := by
  refine ⟨?_, ?_, ?_, ?_, ?_⟩
  · simp [builtinApply, asStrConst]
  · intro a0 h
    have hd : dropEnd b c = some a0 := (dropEnd_iff b c a0).mpr h
    simp [builtinApply, asStrConst, hd]
  · intro h
    have hd : dropEnd b c = none := by
      cases hde : dropEnd b c with
      | none => rfl
      | some x => exact absurd ((dropEnd_iff b c x).mp hde) (h x)
    simp [builtinApply, asStrConst, hd]
  · intro b0 h
    have hd : dropStart a c = some b0 := (dropStart_iff a c b0).mpr h
    simp [builtinApply, asStrConst, hd]
  · intro h
    have hd : dropStart a c = none := by
      cases hde : dropStart a c with
      | none => rfl
      | some x => exact absurd ((dropStart_iff a c x).mp hde) (h x)
    simp [builtinApply, asStrConst, hd]

theorem string_concat_modes_witness :
    builtinApply .sc1
        ⟨none, scName, [.Constant ['x'], .Constant ['y'], .UserVariable "Z"]⟩
      = some (scResult ['x'] ['y'] (['x'] ++ ['y']))
    ∧ builtinApply .sc2
        ⟨none, scName, [.UserVariable "Z", .Constant ['y'],
          .Constant (['x'] ++ ['y'])]⟩
      = some (scResult ['x'] ['y'] (['x'] ++ ['y']))
    ∧ builtinApply .sc2
        ⟨none, scName, [.UserVariable "Z", .Constant ['y'], .Constant []]⟩
      = none
    ∧ builtinApply .sc3
        ⟨none, scName, [.Constant ['x'], .UserVariable "Z",
          .Constant (['x'] ++ ['y'])]⟩
      = some (scResult ['x'] ['y'] (['x'] ++ ['y']))
    ∧ builtinApply .sc3
        ⟨none, scName, [.Constant ['x'], .UserVariable "Z", .Constant []]⟩
      = none :=
  ⟨(string_concat_modes ['x'] ['y'] [] (.UserVariable "Z") none).1,
   (string_concat_modes ['x'] ['y'] (['x'] ++ ['y']) (.UserVariable "Z")
      none).2.1 ['x'] rfl,
   (string_concat_modes ['x'] ['y'] [] (.UserVariable "Z") none).2.2.1
     (fun a0 h => by simp at h),
   (string_concat_modes ['x'] ['y'] (['x'] ++ ['y']) (.UserVariable "Z")
      none).2.2.2.1 ['y'] rfl,
   (string_concat_modes ['x'] ['y'] [] (.UserVariable "Z") none).2.2.2.2
     (fun b0 h => by simp at h)⟩

/-- C8 counterexample: on a string_concat literal whose three arguments
are all constants — a triple compatible with every mask — all three mode
guards return true, not exactly one. -/
theorem builtin_select_exclusivity_cex :
    scCompatible scLit0 = true
    ∧ builtinSelect .sc1 scLit0 = true
    ∧ builtinSelect .sc2 scLit0 = true
    ∧ builtinSelect .sc3 scLit0 = true := by decide

theorem select_run_false (pos : Option SpannedPosition) (args : List IRTerm) :
    builtinSelect .runB ⟨pos, scName, args⟩ = false := by
  have h : (runName = scName) = False := by simp [runName, scName]
  simp [builtinSelect, builtinName, h]

theorem select_from_false (pos : Option SpannedPosition) (args : List IRTerm) :
    builtinSelect .fromB ⟨pos, scName, args⟩ = false := by
  have h : (fromName = scName) = False := by simp [fromName, scName]
  simp [builtinSelect, builtinName, h]

/-- C8 amended: on a three-argument string_concat literal compatible with
at least one mask, at least one mode guard passes; the guards are
mutually exclusive unless all three arguments are ground, in which case
all three pass; and the dispatcher always selects exactly one mode, the
first passing one in declaration order. -/
theorem builtin_select_first_match (t1 t2 t3 : IRTerm)
    (pos : Option SpannedPosition)
    (h : scCompatible ⟨pos, scName, [t1, t2, t3]⟩ = true) :
    (builtinSelect .sc1 ⟨pos, scName, [t1, t2, t3]⟩
      || builtinSelect .sc2 ⟨pos, scName, [t1, t2, t3]⟩
      || builtinSelect .sc3 ⟨pos, scName, [t1, t2, t3]⟩) = true
    ∧ ((t1.isConst && t2.isConst && t3.isConst) = false →
        ((builtinSelect .sc1 ⟨pos, scName, [t1, t2, t3]⟩
            && !builtinSelect .sc2 ⟨pos, scName, [t1, t2, t3]⟩
            && !builtinSelect .sc3 ⟨pos, scName, [t1, t2, t3]⟩)
          || (!builtinSelect .sc1 ⟨pos, scName, [t1, t2, t3]⟩
            && builtinSelect .sc2 ⟨pos, scName, [t1, t2, t3]⟩
            && !builtinSelect .sc3 ⟨pos, scName, [t1, t2, t3]⟩)
          || (!builtinSelect .sc1 ⟨pos, scName, [t1, t2, t3]⟩
            && !builtinSelect .sc2 ⟨pos, scName, [t1, t2, t3]⟩
            && builtinSelect .sc3 ⟨pos, scName, [t1, t2, t3]⟩)) = true)
    ∧ ((t1.isConst && t2.isConst && t3.isConst) = true →
        builtinSelect .sc1 ⟨pos, scName, [t1, t2, t3]⟩ = true
        ∧ builtinSelect .sc2 ⟨pos, scName, [t1, t2, t3]⟩ = true
        ∧ builtinSelect .sc3 ⟨pos, scName, [t1, t2, t3]⟩ = true)
    ∧ select_builtin ⟨pos, scName, [t1, t2, t3]⟩ =
        .Match (if builtinSelect .sc1 ⟨pos, scName, [t1, t2, t3]⟩ then .sc1
          else if builtinSelect .sc2 ⟨pos, scName, [t1, t2, t3]⟩ then .sc2
          else .sc3) := by
  simp only [scCompatible, builtinSelect, select_builtin, builtinOrder,
    builtinName, argGroundness, maskOk, List.find?, List.zip, List.zipWith,
    List.all_cons, List.all_nil] at *
  cases h1 : t1.isConst <;> cases h2 : t2.isConst <;> cases h3 : t3.isConst <;>
    simp [h1, h2, h3, select_run_false, builtinSelect, builtinName, maskOk,
      argGroundness, runName, fromName, scName] at *

theorem builtin_select_first_match_witness :
    (builtinSelect .sc1
        ⟨none, scName, [.Constant ['a'], .Constant ['b'], .UserVariable "X"]⟩
      || builtinSelect .sc2
        ⟨none, scName, [.Constant ['a'], .Constant ['b'], .UserVariable "X"]⟩
      || builtinSelect .sc3
        ⟨none, scName, [.Constant ['a'], .Constant ['b'], .UserVariable "X"]⟩)
      = true
    ∧ select_builtin
        ⟨none, scName, [.Constant ['a'], .Constant ['b'], .UserVariable "X"]⟩ =
        .Match (if builtinSelect .sc1
            ⟨none, scName, [.Constant ['a'], .Constant ['b'], .UserVariable "X"]⟩
          then .sc1
          else if builtinSelect .sc2
            ⟨none, scName, [.Constant ['a'], .Constant ['b'], .UserVariable "X"]⟩
          then .sc2 else .sc3) :=
  ⟨(builtin_select_first_match (.Constant ['a']) (.Constant ['b'])
      (.UserVariable "X") none (by decide)).1,
   (builtin_select_first_match (.Constant ['a']) (.Constant ['b'])
      (.UserVariable "X") none (by decide)).2.2.2⟩

/-- C5: the engine panics instead of degrading gracefully when the
unknown-predicate diagnostic is built for a literal with no recorded
source position (the source unwraps the optional position). -/
theorem unknown_predicate_missing_position_panics :
    sld [] [bogusNoPos] 10 [] 0 = .panicked := by rfl

/-- C3: depth monotonicity fails.  With one unknown predicate hidden
behind the depth bound, depth 1 returns a tree whose only answer is the
goal fact, while depth 2 aborts with the unknown-predicate diagnostic and
returns no tree at all. -/
theorem depth_monotonicity_failure :
    solutionsOf (sld rulesC3 [litA] 1 mapC3 0) 3 = some [[litA]]
    ∧ sld rulesC3 [litA] 2 mapC3 0 =
        .fail ⟨.error, unknownPredMsg, [⟨7, 12⟩]⟩ := ⟨rfl, rfl⟩

/-- C1 counterexample: the goal run with a constant and a stray variable
is accepted by the run builtin (the mask checks only position 0), the
engine returns a tree, and its unique answer still contains the variable,
so not every literal of every answer is ground. -/
theorem solution_groundness_cex :
    solutionsOf (sld [] [runLit] 2 [] 0) 3 = some [[runLit]]
    ∧ runLit.isGround = false := ⟨rfl, rfl⟩

theorem ofe_rest_length : ∀ s : Str,
    (outside_format_expansion s).2.length ≤ s.length
  | [] => by simp [outside_format_expansion]
  | [c] => by
    simp only [outside_format_expansion]
    split <;> simp
  | c :: c2 :: rest => by
    simp only [outside_format_expansion]
    split
    · have h := ofe_rest_length rest
      simp only [List.length_cons]
      omega
    · split
      · simp
      · have h := ofe_rest_length (c2 :: rest)
        simp only [List.length_cons] at *
        omega

theorem dropWhile_length_le {α : Type} (p : α → Bool) :
    ∀ l : List α, (l.dropWhile p).length ≤ l.length := by
  intro l
  induction l with
  | nil => simp
  | cons x xs ih =>
    by_cases hx : p x
    · simp only [List.dropWhile, hx]
      simp only [List.length_cons]
      omega
    · simp [List.dropWhile, hx]

theorem parse_expansion_length (s : Str) (v : String) (rest : Str)
    (h : parse_expansion s = some (v, rest)) : rest.length < s.length := by
  match s with
  | [] => simp [parse_expansion] at h
  | [c1] => simp [parse_expansion] at h
  | c1 :: c2 :: rest1 =>
    simp only [parse_expansion] at h
    split at h <;> try simp at h
    match rest1, h with
    | c3 :: rest2, h => ?_
    by_cases ha : c3.isAlpha <;> simp [ha] at h
    cases hdw : List.dropWhile identChar rest2 with
    | nil => rw [hdw] at h; simp at h
    | cons c4 rest3 =>
      rw [hdw] at h
      by_cases hc4 : c4 = rbraceChar <;> simp [hc4] at h
      obtain ⟨hv, hrest⟩ := h
      have h4 : (List.dropWhile identChar rest2).length ≤ rest2.length :=
        dropWhile_length_le identChar rest2
      rw [hdw] at h4
      subst hrest
      simp only [List.length_cons] at h4 ⊢
      omega

theorem fsLoop_chain : ∀ (fuel : Nat) (s : Str) (k : Nat) (acc : List Literal),
    s.length < fuel →
    fsLoopF fuel s (.AuxiliaryVariable k) acc (k + 1) =
      (acc ++ chainFrom k (fsSegmentsF fuel s),
        .AuxiliaryVariable (k + (fsSegmentsF fuel s).length),
        k + (fsSegmentsF fuel s).length + 1) := by
  intro fuel
  induction fuel with
  | zero => intro s k acc h; omega
  | succ n ih =>
    intro s k acc h
    by_cases hs : s = []
    · subst hs
      simp [fsLoopF, fsSegmentsF, chainFrom]
    · simp only [fsLoopF, fsSegmentsF, if_neg hs]
      cases hp : parse_expansion (outside_format_expansion s).2 with
      | none => simp [chainFrom, segTerm]
      | some vr =>
        have hlen : vr.2.length < n := by
          have h1 := parse_expansion_length (outside_format_expansion s).2 vr.1
            vr.2 (by rw [hp])
          have h2 := ofe_rest_length s
          omega
        have := ih vr.2 (k + 2) (acc ++
          [scLit (.AuxiliaryVariable k)
            (.Constant (replace_escape (outside_format_expansion s).1))
            (.AuxiliaryVariable (k + 1)),
           scLit (.AuxiliaryVariable (k + 1)) (.UserVariable vr.1)
            (.AuxiliaryVariable (k + 2))]) hlen
        simp only [List.append_assoc, List.cons_append, List.nil_append] at this ⊢
        rw [show k + 2 + 1 = k + 3 by omega] at this
        rw [this]
        simp [chainFrom, segTerm]
        omega

/-- C6: format-string lowering.  The emitted literal list is exactly the
initial no-op literal followed by the chain that, scanning the content
left to right, links one literal per outside segment (escapes replaced)
and one per expansion variable through consecutively numbered auxiliary
variables drawn from the counter; the replacement term is the last
auxiliary variable and the counter advances past every id used. -/
theorem format_string_lowering_chain (ctr : Nat) (s : Str) :
    convert_format_string ctr s =
      (scLit (.Constant []) (.Constant []) (.AuxiliaryVariable ctr) ::
          chainFrom ctr (fsSegments s),
        .AuxiliaryVariable (ctr + (fsSegments s).length),
        ctr + (fsSegments s).length + 1) := by
  unfold convert_format_string fsSegments
  rw [fsLoop_chain (s.length + 1) s ctr _ (by omega)]
  simp

theorem foldl_push {α β : Type} (f : α → β) :
    ∀ (ys : List α) (acc : List β),
      ys.foldl (fun a c => a ++ [f c]) acc = acc ++ ys.map f := by
  intro ys
  induction ys with
  | nil => simp
  | cons y ys ih => intro acc; simp [ih]

theorem foldl_pushall {α β γ : Type} (g : α → β → γ) :
    ∀ (xs : List α) (ys : List β) (acc : List γ),
      xs.foldl (fun a c1 => ys.foldl (fun a2 c2 => a2 ++ [g c1 c2]) a) acc =
        acc ++ xs.flatMap (fun c1 => ys.map (g c1)) := by
  intro xs
  induction xs with
  | nil => simp
  | cons x xs ih =>
    intro ys acc
    rw [List.foldl_cons, foldl_push, ih]
    simp

theorem lowerExprF_heads (h : ModusLiteral) :
    ∀ (e : Expression) (ctr : Nat), ∀ cl ∈ (lowerExprF h e ctr).1,
      cl.head = lowerHead h := by
  intro e
  induction e with
  | Literal l => intro ctr cl hcl; simp [lowerExprF] at hcl; simp [hcl]
  | OperatorApplication e op ih => intro ctr cl hcl; exact ih ctr cl hcl
  | And e1 e2 ih1 ih2 =>
    intro ctr cl hcl
    simp only [lowerExprF, foldl_pushall, List.nil_append, List.mem_flatMap,
      List.mem_map] at hcl
    obtain ⟨c1, hc1, c2, hc2, rfl⟩ := hcl
    exact ih1 ctr c1 hc1
  | Or e1 e2 ih1 ih2 =>
    intro ctr cl hcl
    simp only [lowerExprF, List.mem_append] at hcl
    rcases hcl with hcl | hcl
    · exact ih1 ctr cl hcl
    · exact ih2 _ cl hcl

/-- C7: surface lowering of the expression tree.  A conjunction lowers to
the Cartesian concatenation of the left and right clause bodies (counter
threaded left first), a disjunction to the concatenation of the clause
lists, an operator application exactly as its inner expression, a missing
body to a single bodyless clause with the lowered head, and every clause
produced from an expression carries the lowered head. -/
theorem expression_lowering (h : ModusLiteral) (e1 e2 e : Expression)
    (op : ModusLiteral) (ctr : Nat) :
    (lowerExprF h (.And e1 e2) ctr).1 =
      (lowerExprF h e1 ctr).1.flatMap (fun c1 =>
        (lowerExprF h e2 (lowerExprF h e1 ctr).2).1.map (fun c2 =>
          ⟨c1.head, c1.body ++ c2.body⟩))
    ∧ (lowerExprF h (.Or e1 e2) ctr).1 =
        (lowerExprF h e1 ctr).1 ++ (lowerExprF h e2 (lowerExprF h e1 ctr).2).1
    ∧ lowerExprF h (.OperatorApplication e op) ctr = lowerExprF h e ctr
    ∧ lowerModusClause ⟨h, none⟩ ctr = ([⟨lowerHead h, []⟩], ctr)
    ∧ (∀ cl ∈ (lowerExprF h e ctr).1, cl.head = lowerHead h) := by
  refine ⟨?_, rfl, rfl, rfl, lowerExprF_heads h e ctr⟩
  simp [lowerExprF, foldl_pushall]

theorem expression_lowering_witness :
    (lowerExprF ⟨"p", []⟩
        (.And (.Literal ⟨"q", []⟩) (.Literal ⟨"r", []⟩)) 0).1 =
      (lowerExprF ⟨"p", []⟩ (.Literal ⟨"q", []⟩) 0).1.flatMap (fun c1 =>
        (lowerExprF ⟨"p", []⟩ (.Literal ⟨"r", []⟩)
          (lowerExprF ⟨"p", []⟩ (.Literal ⟨"q", []⟩) 0).2).1.map (fun c2 =>
            ⟨c1.head, c1.body ++ c2.body⟩))
    ∧ (⟨lowerHead ⟨"p", []⟩, [⟨none, "q", []⟩]⟩ : Clause).head =
        lowerHead (⟨"p", []⟩ : ModusLiteral) :=
  ⟨(expression_lowering ⟨"p", []⟩ (.Literal ⟨"q", []⟩) (.Literal ⟨"r", []⟩)
      (.Literal ⟨"q", []⟩) ⟨"m", []⟩ 0).1,
   (expression_lowering ⟨"p", []⟩ (.Literal ⟨"q", []⟩) (.Literal ⟨"r", []⟩)
      (.Literal (⟨"q", []⟩ : ModusLiteral)) ⟨"m", []⟩ 0).2.2.2.2
     ⟨lowerHead ⟨"p", []⟩, [⟨none, "q", []⟩]⟩ (by decide)⟩

theorem innerF_done_goal (fuel : Nat) (rules : List Clause) (maxd : Nat)
    (grounded : GroundedMap) (level : Nat) (goal : GoalWithHistory) (ctr : Nat)
    (t : Tree) (c2 : Nat)
    (h : innerF fuel rules maxd grounded level goal ctr = .done (some t) c2) :
    t.goal = goal := by
  match fuel with
  | 0 => simp [innerF] at h
  | n + 1 =>
    unfold innerF at h
    split at h
    · simp only [EngineOut.done.injEq, Option.some.injEq] at h
      rw [← h.1]
      rfl
    · split at h
      · simp at h
      · split at h
        · simp at h
        · simp at h
        · simp at h
        · split at h
          · split at h
            · simp at h
            · simp only [EngineOut.done.injEq, Option.some.injEq] at h
              rw [← h.1]
              rfl
          · simp at h
          · simp at h
          · simp at h

theorem wrapGoal_project (goal : List Literal) (s : Substitution) :
    (wrapGoal goal).map (fun lwh => applyLit s lwh.literal) =
      goal.map (applyLit s) := by
  unfold wrapGoal
  rw [List.map_map]
  have h : goal.enum.map ((fun lwh => applyLit s lwh.literal) ∘
      (fun p => (⟨p.2, 0, ⟨.Query, p.1⟩⟩ : LiteralWithHistory))) =
      goal.enum.map (fun p => applyLit s p.2) := rfl
  rw [h, show (fun p : Nat × Literal => applyLit s p.2) =
    (applyLit s) ∘ Prod.snd from rfl, ← List.map_map, List.enum_map_snd]

/-- C1 amended: every answer extracted from a tree returned by the engine
is the original goal instantiated by one single substitution (the
groundness half of the original claim fails; see the counterexample). -/
theorem solutions_are_goal_instances (rules : List Clause)
    (goal : List Literal) (maxd : Nat) (grounded : GroundedMap)
    (ctr fuel ctr2 : Nat) (t : Tree)
    (h : sld rules goal maxd grounded ctr = .done (some t) ctr2) :
    ∀ ans ∈ solutionsListF fuel t,
      ∃ s : Substitution, ans = goal.map (applyLit s) := by
  have hg : t.goal = wrapGoal goal :=
    innerF_done_goal (maxd + 1) rules maxd grounded 0 (wrapGoal goal) ctr t
      ctr2 h
  intro ans hans
  simp only [solutionsListF, List.mem_map] at hans
  obtain ⟨s, _, rfl⟩ := hans
  exact ⟨s, by rw [hg, wrapGoal_project]⟩

theorem solutions_are_goal_instances_witness :
    ∃ s : Substitution, [runLit] = [runLit].map (applyLit s) :=
  solutions_are_goal_instances [] [runLit] 2 [] 0 3 0 treeRun rfl [runLit]
    (by decide)

theorem goRules_congr (ch1 ch2 : GoalWithHistory → Nat → EngineOut)
    (hch : ∀ g c, ch1 g c = ch2 g c) (lid : Nat) (goal : GoalWithHistory)
    (level : Nat) (lit : Literal) :
    ∀ (lst : List (Nat × Clause)) (ctr : Nat)
      (acc : List ((Nat × ClauseId) × (Substitution × Substitution × Tree))),
      goRules ch1 lid goal level lit lst ctr acc =
        goRules ch2 lid goal level lit lst ctr acc := by
  intro lst
  induction lst with
  | nil => intro ctr acc; rfl
  | cons rc rest ih =>
    intro ctr acc
    simp only [goRules]
    split
    · cases hu : unifyLit (renameClause rc.2 ctr).1.head lit with
      | none => dsimp only; exact ih _ _
      | some mgu =>
        dsimp only
        rw [hch]
        cases ch2 (resolve lid (.Rule rc.1) goal mgu (renameClause rc.2 ctr).1
            (level + 1)) (renameClause rc.2 ctr).2.2 with
        | done ot ctr2 => cases ot <;> (dsimp only; exact ih _ _)
        | fail d => rfl
        | panicked => rfl
        | outOfFuel => rfl
    · exact ih ctr acc

theorem buildResolvents_congr (ch1 ch2 : GoalWithHistory → Nat → EngineOut)
    (hch : ∀ g c, ch1 g c = ch2 g c) (rules : List Clause) (lid : Nat)
    (l : LiteralWithHistory) (goal : GoalWithHistory) (level ctr : Nat) :
    buildResolvents ch1 rules lid l goal level ctr =
      buildResolvents ch2 rules lid l goal level ctr := by
  simp only [buildResolvents]
  split
  · exact goRules_congr ch1 ch2 hch lid goal level l.literal rules.enum ctr []
  · rw [hch]
    split <;> first
      | rfl
      | exact goRules_congr ch1 ch2 hch lid goal level l.literal rules.enum _ _

theorem goRules_no_rfuel (ch : GoalWithHistory → Nat → EngineOut)
    (hch : ∀ g c, ch g c ≠ .outOfFuel) (lid : Nat) (goal : GoalWithHistory)
    (level : Nat) (lit : Literal) :
    ∀ (lst : List (Nat × Clause)) (ctr : Nat)
      (acc : List ((Nat × ClauseId) × (Substitution × Substitution × Tree))),
      goRules ch lid goal level lit lst ctr acc ≠ .rfuel := by
  intro lst
  induction lst with
  | nil => intro ctr acc; simp [goRules]
  | cons rc rest ih =>
    intro ctr acc
    simp only [goRules]
    split
    · cases hu : unifyLit (renameClause rc.2 ctr).1.head lit with
      | none => dsimp only; exact ih _ _
      | some mgu =>
        dsimp only
        cases hc : ch (resolve lid (.Rule rc.1) goal mgu
            (renameClause rc.2 ctr).1 (level + 1))
            (renameClause rc.2 ctr).2.2 with
        | done ot ctr2 => cases ot <;> (dsimp only; exact ih _ _)
        | fail d => simp
        | panicked => simp
        | outOfFuel => exact absurd hc (hch _ _)
    · exact ih ctr acc

theorem buildResolvents_no_rfuel (ch : GoalWithHistory → Nat → EngineOut)
    (hch : ∀ g c, ch g c ≠ .outOfFuel) (rules : List Clause) (lid : Nat)
    (l : LiteralWithHistory) (goal : GoalWithHistory) (level ctr : Nat) :
    buildResolvents ch rules lid l goal level ctr ≠ .rfuel := by
  simp only [buildResolvents]
  split
  · exact goRules_no_rfuel ch hch lid goal level l.literal rules.enum ctr []
  · cases hc : ch _ ctr with
    | done ot ctr2 =>
      cases ot <;>
        exact goRules_no_rfuel ch hch lid goal level l.literal rules.enum _ _
    | fail d => simp
    | panicked => simp
    | outOfFuel => exact absurd hc (hch _ _)

theorem innerF_fuel_agree : ∀ (d f1 f2 : Nat) (rules : List Clause)
    (maxd : Nat) (grounded : GroundedMap) (level : Nat)
    (goal : GoalWithHistory) (ctr : Nat),
    maxd - level = d → d < f1 → d < f2 →
    innerF f1 rules maxd grounded level goal ctr =
      innerF f2 rules maxd grounded level goal ctr ∧
    innerF f1 rules maxd grounded level goal ctr ≠ .outOfFuel := by
  intro d
  induction d with
  | zero =>
    intro f1 f2 rules maxd grounded level goal ctr hd h1 h2
    match f1, f2 with
    | n1 + 1, n2 + 1 =>
      by_cases hg : goal = []
      · simp [innerF, hg]
      · have hml : maxd ≤ level := by omega
        simp [innerF, hg, hml]
  | succ d ih =>
    intro f1 f2 rules maxd grounded level goal ctr hd h1 h2
    match f1, f2 with
    | n1 + 1, n2 + 1 =>
      by_cases hg : goal = []
      · simp [innerF, hg]
      · by_cases hml : maxd ≤ level
        · simp [innerF, hg, hml]
        · have hd2 : maxd - (level + 1) = d := by omega
          have hch : ∀ g c, innerF n1 rules maxd grounded (level + 1) g c =
              innerF n2 rules maxd grounded (level + 1) g c :=
            fun g c =>
              (ih n1 n2 rules maxd grounded (level + 1) g c hd2 (by omega)
                (by omega)).1
          have hnf : ∀ g c,
              innerF n1 rules maxd grounded (level + 1) g c ≠ .outOfFuel :=
            fun g c =>
              (ih n1 n2 rules maxd grounded (level + 1) g c hd2 (by omega)
                (by omega)).2
          unfold innerF
          simp only [if_neg hg, if_neg hml]
          cases hsel : selectGo grounded goal 0 with
          | spanic => simp
          | serr derr => simp
          | sok osel =>
            cases osel with
            | none => simp
            | some sel =>
              dsimp only
              rw [buildResolvents_congr (innerF n1 rules maxd grounded
                (level + 1)) (innerF n2 rules maxd grounded (level + 1)) hch
                rules sel.1 sel.2 goal level ctr]
              have hbf := buildResolvents_no_rfuel
                (innerF n2 rules maxd grounded (level + 1))
                (fun g c => (hch g c) ▸ hnf g c) rules sel.1 sel.2 goal level
                ctr
              cases hb : buildResolvents (innerF n2 rules maxd grounded
                  (level + 1)) rules sel.1 sel.2 goal level ctr with
              | rdone rs ctr2 =>
                constructor
                · rfl
                · dsimp only
                  split <;> simp
              | rfail derr => simp
              | rpanic => simp
              | rfuel => exact absurd hb hbf

/-- C9: termination through the depth bound.  Any fuel exceeding
maxdepth minus level computes the same result as the exact bound — every
chain of recursive calls of inner strictly increases the level and stops
at the depth bound, an empty goal, or a goal with no admissible literal —
and the computation never runs out of fuel, so sld with its maxdepth+1
budget is total. -/
theorem inner_depth_bound (fuel : Nat) (rules : List Clause) (maxd : Nat)
    (grounded : GroundedMap) (level : Nat) (goal : GoalWithHistory)
    (ctr : Nat) (h : maxd - level < fuel) :
    innerF fuel rules maxd grounded level goal ctr =
      innerF (maxd - level + 1) rules maxd grounded level goal ctr ∧
    innerF fuel rules maxd grounded level goal ctr ≠ .outOfFuel :=
  innerF_fuel_agree (maxd - level) fuel (maxd - level + 1) rules maxd grounded
    level goal ctr rfl h (by omega)

theorem inner_depth_bound_witness :
    innerF 5 [] 1 [] 0 (wrapGoal [litA]) 0 =
      innerF (1 - 0 + 1) [] 1 [] 0 (wrapGoal [litA]) 0 ∧
    innerF 5 [] 1 [] 0 (wrapGoal [litA]) 0 ≠ .outOfFuel :=
  inner_depth_bound 5 [] 1 [] 0 (wrapGoal [litA]) 0 (by omega)

theorem goRules_skip_all (ch : GoalWithHistory → Nat → EngineOut) (lid : Nat)
    (goal : GoalWithHistory) (level : Nat) (lit : Literal) :
    ∀ (rules0 : List Clause) (n ctr : Nat)
      (acc : List ((Nat × ClauseId) × (Substitution × Substitution × Tree))),
      (∀ cl ∈ rules0, cl.head.signature ≠ lit.signature) →
      goRules ch lid goal level lit (List.enumFrom n rules0) ctr acc =
        .rdone acc ctr := by
  intro rules0
  induction rules0 with
  | nil => intro n ctr acc h; rfl
  | cons cl rest ih =>
    intro n ctr acc h
    have hne : ¬(cl.head.signature = lit.signature) := h cl (by simp)
    simp only [List.enumFrom, goRules, if_neg hne]
    exact ih (n + 1) ctr acc (fun c hc => h c (by simp [hc]))

theorem sc1_match (pos : Option SpannedPosition) (a b c : Str) :
    select_builtin (scGoalLit pos a b c) = .Match .sc1 := by
  have h1 : builtinSelect .sc1 (scGoalLit pos a b c) = true := by
    simp [builtinSelect, builtinName, maskOk, argGroundness, scGoalLit,
      IRTerm.isConst]
  simp [select_builtin, builtinOrder, List.find?, h1]

/-- C10: a ground string_concat goal against a program with no
string_concat/3 clause.  The dispatcher selects the first mode; when the
third constant is the concatenation of the first two the engine returns a
tree (a success), and otherwise the fabricated head fails to unify
silently and the engine returns the no-proof outcome — never an error
diagnostic — with the counter untouched. -/
theorem ground_string_concat_goal (rules : List Clause)
    (grounded : GroundedMap) (ctr maxd : Nat) (a b c : Str)
    (pos : Option SpannedPosition) (hd : 1 ≤ maxd)
    (hr : ∀ cl ∈ rules, cl.head.signature ≠ (scName, 3)) :
    select_builtin (scGoalLit pos a b c) = .Match .sc1
    ∧ (c = a ++ b → ∃ t : Tree,
        sld rules [scGoalLit pos a b c] maxd grounded ctr =
          .done (some t) ctr)
    ∧ (c ≠ a ++ b →
        sld rules [scGoalLit pos a b c] maxd grounded ctr =
          .done none ctr) := by
  obtain ⟨m, rfl⟩ : ∃ m, maxd = m + 1 := ⟨maxd - 1, by omega⟩
  have hmatch := sc1_match pos a b c
  have hsig : (scGoalLit pos a b c).signature = (scName, 3) := rfl
  have hr2 : ∀ cl ∈ rules, cl.head.signature ≠ (scGoalLit pos a b c).signature := by
    intro cl hcl
    rw [hsig]
    exact hr cl hcl
  have happly : builtinApply .sc1 (scGoalLit pos a b c) =
      some (scResult a b (a ++ b)) := by
    simp [builtinApply, asStrConst, scGoalLit]
  have hsel : selectGo grounded
      [⟨scGoalLit pos a b c, 0, ⟨.Query, 0⟩⟩] 0 =
      .sok (some (0, ⟨scGoalLit pos a b c, 0, ⟨.Query, 0⟩⟩)) := by
    simp [selectGo, hmatch, SelectBuiltinResult.isMatch]
  have hchild : innerF (m + 1) rules (m + 1) grounded 1 [] ctr =
      .done (some (.mk [] 1 [])) ctr := by simp [innerF]
  refine ⟨hmatch, ?_, ?_⟩
  · intro hc
    subst hc
    have hunify : unifyLit (scResult a b (a ++ b)) (scGoalLit pos a b (a ++ b)) =
        some [] := by
      simp [unifyLit, scResult, scGoalLit, Literal.signature, unifyGo,
        applyTerm]
    refine ⟨.mk [⟨scGoalLit pos a b (a ++ b), 0, ⟨.Query, 0⟩⟩] 0
      [((0, .Builtin (scResult a b (a ++ b))), ([], [], .mk [] 1 []))], ?_⟩
    show innerF (m + 1 + 1) rules (m + 1) grounded 0
      [⟨scGoalLit pos a b (a ++ b), 0, ⟨.Query, 0⟩⟩] ctr = _
    rw [innerF.eq_def]
    simp only [show ¬(m + 1 ≤ 0) from by omega, if_false, reduceIte,
      List.cons_ne_self]
    rw [hsel]
    dsimp only
    rw [show buildResolvents (innerF (m + 1) rules (m + 1) grounded 1) rules 0
        ⟨scGoalLit pos a b (a ++ b), 0, ⟨.Query, 0⟩⟩
        [⟨scGoalLit pos a b (a ++ b), 0, ⟨.Query, 0⟩⟩] 0 ctr =
        .rdone [((0, .Builtin (scResult a b (a ++ b))), ([], [],
          .mk [] 1 []))] ctr from ?_]
    · rfl
    · simp only [buildResolvents, hmatch, happly, Option.some_bind, hunify,
        Option.map_some']
      simp only [resolve, List.eraseIdx, List.enum, List.enumFrom,
        List.map_nil, List.nil_append, List.append_nil]
      rw [hchild]
      exact goRules_skip_all (innerF (m + 1) rules (m + 1) grounded 1) 0
        [⟨scGoalLit pos a b (a ++ b), 0, ⟨.Query, 0⟩⟩] 0
        (scGoalLit pos a b (a ++ b)) rules 0 ctr _ hr2
  · intro hc
    have hne : ¬(a ++ b = c) := fun h => hc h.symm
    have hunify : unifyLit (scResult a b (a ++ b)) (scGoalLit pos a b c) =
        none := by
      simp [unifyLit, scResult, scGoalLit, Literal.signature, unifyGo,
        applyTerm, hne]
    show innerF (m + 1 + 1) rules (m + 1) grounded 0
      [⟨scGoalLit pos a b c, 0, ⟨.Query, 0⟩⟩] ctr = _
    rw [innerF.eq_def]
    simp only [show ¬(m + 1 ≤ 0) from by omega, if_false, reduceIte,
      List.cons_ne_self]
    rw [hsel]
    dsimp only
    rw [show buildResolvents (innerF (m + 1) rules (m + 1) grounded 1) rules 0
        ⟨scGoalLit pos a b c, 0, ⟨.Query, 0⟩⟩
        [⟨scGoalLit pos a b c, 0, ⟨.Query, 0⟩⟩] 0 ctr =
        .rdone [] ctr from ?_]
    · rfl
    · simp only [buildResolvents, hmatch, happly, Option.some_bind, hunify,
        Option.map_none']
      exact goRules_skip_all (innerF (m + 1) rules (m + 1) grounded 1) 0
        [⟨scGoalLit pos a b c, 0, ⟨.Query, 0⟩⟩] 0 (scGoalLit pos a b c)
        rules 0 ctr [] hr2

theorem ground_string_concat_goal_witness :
    select_builtin (scGoalLit none ['x'] ['y'] (['x'] ++ ['y'])) =
      .Match .sc1
    ∧ (∃ t : Tree,
        sld [] [scGoalLit none ['x'] ['y'] (['x'] ++ ['y'])] 1 [] 7 =
          .done (some t) 7)
    ∧ sld [] [scGoalLit none ['x'] ['y'] ['q']] 1 [] 7 = .done none 7 :=
  ⟨(ground_string_concat_goal [] [] 7 1 ['x'] ['y'] (['x'] ++ ['y']) none
      (by omega) (by simp)).1,
   (ground_string_concat_goal [] [] 7 1 ['x'] ['y'] (['x'] ++ ['y']) none
      (by omega) (by simp)).2.1 rfl,
   (ground_string_concat_goal [] [] 7 1 ['x'] ['y'] ['q'] none
      (by omega) (by simp)).2.2 (by decide)⟩

theorem applyTerm_nil (t : IRTerm) : applyTerm [] t = t := by
  cases t <;> simp [applyTerm, alookup]

theorem CE_nil_right (s : Substitution) : compose_extend s [] = s := by
  simp [compose_extend, applyTerm_nil]

theorem CE_nil_left (s : Substitution) : compose_extend [] s = s := by
  simp [compose_extend, alookup, List.filter_eq_self]

theorem flatten_snd : ∀ (fuel lid : Nat) (cid : ClauseId)
    (mgu ren : Substitution) (t : Tree),
    (flattenComposeF fuel lid cid mgu ren t).map Prod.snd =
      (solutionsInnerF fuel t).map (fun s => compose_extend mgu s) := by
  intro fuel
  induction fuel with
  | zero => intro lid cid mgu ren t; rfl
  | succ n ih =>
    have ih2 : ∀ (lid : Nat) (cid : ClauseId) (m0 ren : Substitution)
        (t0 : Tree) (f : Substitution → Substitution),
        (flattenComposeF n lid cid m0 ren t0).map (fun pv => f pv.2) =
          (solutionsInnerF n t0).map (fun s => f (compose_extend m0 s)) := by
      intro lid cid m0 ren t0 f
      calc (flattenComposeF n lid cid m0 ren t0).map (fun pv => f pv.2)
          = ((flattenComposeF n lid cid m0 ren t0).map Prod.snd).map f := by
            rw [List.map_map]; rfl
        _ = ((solutionsInnerF n t0).map
              (fun s => compose_extend m0 s)).map f := by rw [ih]
        _ = (solutionsInnerF n t0).map (fun s => f (compose_extend m0 s)) := by
            rw [List.map_map]; rfl
    intro lid cid mgu ren t
    by_cases hg : t.goal = []
    · simp [flattenComposeF, solutionsInnerF, hg, CE_nil_right]
    · simp only [flattenComposeF, solutionsInnerF, if_neg hg,
        List.map_flatten, List.map_map, Function.comp_def]
      congr 1
      apply List.map_congr_left
      intro r hr
      exact ih2 r.1.1 r.1.2 r.2.1 r.2.2.1 r.2.2.2
        (fun s => compose_extend mgu s)

theorem flatten_head (fuel lid : Nat) (cid : ClauseId)
    (mgu ren : Substitution) (t : Tree)
    (pv : List PathNode × Substitution)
    (h : pv ∈ flattenComposeF fuel lid cid mgu ren t) :
    ∃ rest, pv.1 = (⟨t.goal, cid, lid, ren⟩ : PathNode) :: rest := by
  match fuel with
  | 0 => simp [flattenComposeF] at h
  | n + 1 =>
    by_cases hg : t.goal = []
    · simp only [flattenComposeF, if_pos hg, List.mem_singleton] at h
      subst h
      exact ⟨[], rfl⟩
    · simp only [flattenComposeF, if_neg hg, List.mem_flatten,
        List.mem_map] at h
      obtain ⟨l2, ⟨r, hr, rfl⟩, hpv⟩ := h
      simp only [List.mem_map] at hpv
      obtain ⟨pv2, hpv2, rfl⟩ := hpv
      exact ⟨pv2.1, rfl⟩

theorem proofForLevel_val (path : List PathNode) (mgu : Substitution)
    (fuel level : Nat) :
    (proofForLevel path mgu fuel level).valuation =
      compose_no_extend (path.getD level defaultPathNode).renamingSub mgu := by
  cases fuel <;> rfl

theorem alookup_map_self (f : IRTerm → IRTerm) :
    ∀ (lst : List IRTerm) (v : IRTerm), v ∈ lst →
      alookup (lst.map (fun u => (u, f u))) v = some (f v) := by
  intro lst
  induction lst with
  | nil => intro v hv; simp at hv
  | cons x xs ih =>
    intro v hv
    by_cases hxv : x = v
    · subst hxv; simp [alookup]
    · have hv2 : v ∈ xs := by
        cases hv with
        | head => exact absurd rfl hxv
        | tail _ h2 => exact h2
      simp [alookup, hxv, ih v hv2]

theorem mem_goalVarList (goal : List Literal) (l : Literal) (t : IRTerm)
    (hl : l ∈ goal) (ht : t ∈ l.args) (hnc : t.isConst = false) :
    t ∈ goalVarList goal := by
  unfold goalVarList
  rw [List.mem_dedup]
  refine List.mem_flatMap.mpr ⟨l, hl, ?_⟩
  unfold Literal.vars
  rw [List.mem_filter]
  exact ⟨ht, by simp [hnc]⟩

theorem project_id_renaming (goal : List Literal) (mgu : Substitution) :
    goal.map (applyLit (compose_no_extend
      ((goalVarList goal).map (fun v => (v, v))) mgu)) =
      goal.map (applyLit mgu) := by
  have hcne : compose_no_extend ((goalVarList goal).map (fun v => (v, v)))
      mgu = (goalVarList goal).map (fun v => (v, applyTerm mgu v)) := by
    simp [compose_no_extend, List.map_map, Function.comp_def]
  rw [hcne]
  apply List.map_congr_left
  intro l hl
  unfold applyLit
  simp only [Literal.mk.injEq, true_and]
  apply List.map_congr_left
  intro t ht
  cases t with
  | Constant c => rfl
  | UserVariable v =>
    have hmem := mem_goalVarList goal l (.UserVariable v) hl ht rfl
    have hlk := alookup_map_self (applyTerm mgu) (goalVarList goal)
      (.UserVariable v) hmem
    show (alookup ((goalVarList goal).map (fun u => (u, applyTerm mgu u)))
      (.UserVariable v)).getD (.UserVariable v) = applyTerm mgu
        (.UserVariable v)
    rw [hlk, Option.getD_some]
  | AuxiliaryVariable i =>
    have hmem := mem_goalVarList goal l (.AuxiliaryVariable i) hl ht rfl
    have hlk := alookup_map_self (applyTerm mgu) (goalVarList goal)
      (.AuxiliaryVariable i) hmem
    show (alookup ((goalVarList goal).map (fun u => (u, applyTerm mgu u)))
      (.AuxiliaryVariable i)).getD (.AuxiliaryVariable i) = applyTerm mgu
        (.AuxiliaryVariable i)
    rw [hlk, Option.getD_some]
  | RenamedVariable i inner =>
    have hmem := mem_goalVarList goal l (.RenamedVariable i inner) hl ht rfl
    have hlk := alookup_map_self (applyTerm mgu) (goalVarList goal)
      (.RenamedVariable i inner) hmem
    show (alookup ((goalVarList goal).map (fun u => (u, applyTerm mgu u)))
      (.RenamedVariable i inner)).getD (.RenamedVariable i inner) =
        applyTerm mgu (.RenamedVariable i inner)
    rw [hlk, Option.getD_some]

theorem dedupProofs_proj (goal : List Literal) :
    ∀ (ps : List Proof) (computed : List (List Literal)) (x : List Literal),
      (x ∈ (dedupProofs goal ps computed).map
        (fun p => goal.map (applyLit p.valuation))) ↔
      (x ∈ ps.map (fun p => goal.map (applyLit p.valuation)) ∧
        x ∉ computed) := by
  intro ps
  induction ps with
  | nil => intro computed x; simp [dedupProofs]
  | cons p rest ih =>
    intro computed x
    by_cases hc : goal.map (applyLit p.valuation) ∈ computed
    · simp only [dedupProofs, if_pos hc, ih, List.map_cons, List.mem_cons]
      constructor
      · rintro ⟨h1, h2⟩
        exact ⟨Or.inr h1, h2⟩
      · rintro ⟨h1 | h1, h2⟩
        · exact absurd hc (by rwa [h1] at h2)
        · exact ⟨h1, h2⟩
    · simp only [dedupProofs, if_neg hc, List.map_cons, List.mem_cons, ih]
      constructor
      · rintro (rfl | ⟨h1, h2⟩)
        · exact ⟨Or.inl rfl, hc⟩
        · exact ⟨Or.inr h1, fun hx => h2 (Or.inr hx)⟩
      · rintro ⟨h1 | h1, h2⟩
        · exact Or.inl h1
        · by_cases hx : x = goal.map (applyLit p.valuation)
          · exact Or.inl hx
          · exact Or.inr ⟨h1, by simp [List.mem_cons, hx, h2]⟩

/-- C2: proof/solution agreement.  On any tree the engine returns, every
reconstructed proof projects through its valuation to one of the
extracted answers, and the projected goals of the returned proofs cover
exactly the answer set. -/
theorem proofs_solutions_agreement (rules : List Clause)
    (goal : List Literal) (maxd : Nat) (grounded : GroundedMap)
    (ctr ctr2 fuel : Nat) (t : Tree)
    (h : sld rules goal maxd grounded ctr = .done (some t) ctr2) :
    (∀ p ∈ proofsF fuel t goal,
      goal.map (applyLit p.valuation) ∈ solutionsListF fuel t)
    ∧ ∀ ans, ans ∈ solutionsListF fuel t ↔
        ∃ p ∈ proofsF fuel t goal,
          goal.map (applyLit p.valuation) = ans := by
  have hg : t.goal = wrapGoal goal :=
    innerF_done_goal (maxd + 1) rules maxd grounded 0 (wrapGoal goal) ctr t
      ctr2 h
  have key : (flattenComposeF fuel 0 .Query []
        ((goalVarList goal).map (fun v => (v, v))) t).map
      (fun pv => goal.map
        (applyLit (proofForLevel pv.1 pv.2 fuel 0).valuation)) =
      solutionsListF fuel t := by
    have h1 : ∀ pv ∈ flattenComposeF fuel 0 .Query []
        ((goalVarList goal).map (fun v => (v, v))) t,
        goal.map (applyLit (proofForLevel pv.1 pv.2 fuel 0).valuation) =
          goal.map (applyLit pv.2) := by
      intro pv hpv
      rw [proofForLevel_val]
      obtain ⟨rest, hrest⟩ := flatten_head fuel 0 .Query []
        ((goalVarList goal).map (fun v => (v, v))) t pv hpv
      rw [hrest]
      simp only [List.getD_cons_zero]
      exact project_id_renaming goal pv.2
    rw [List.map_congr_left h1]
    have h2 : (flattenComposeF fuel 0 .Query []
          ((goalVarList goal).map (fun v => (v, v))) t).map
        (fun pv => goal.map (applyLit pv.2)) =
        ((flattenComposeF fuel 0 .Query []
          ((goalVarList goal).map (fun v => (v, v))) t).map Prod.snd).map
          (fun s => goal.map (applyLit s)) := by
      rw [List.map_map]; rfl
    rw [h2, flatten_snd]
    have h3 : (solutionsInnerF fuel t).map
        (fun s => compose_extend [] s) = solutionsInnerF fuel t := by
      simp [CE_nil_left]
    rw [h3]
    unfold solutionsListF
    apply List.map_congr_left
    intro s hs
    rw [hg, wrapGoal_project]
  have hproofs : proofsF fuel t goal =
      dedupProofs goal ((flattenComposeF fuel 0 .Query []
        ((goalVarList goal).map (fun v => (v, v))) t).map
          (fun pv => proofForLevel pv.1 pv.2 fuel 0)) [] := rfl
  have hall : ((flattenComposeF fuel 0 .Query []
        ((goalVarList goal).map (fun v => (v, v))) t).map
          (fun pv => proofForLevel pv.1 pv.2 fuel 0)).map
        (fun p => goal.map (applyLit p.valuation)) =
      solutionsListF fuel t := by
    rw [List.map_map]
    exact key
  constructor
  · intro p hp
    have hmem : goal.map (applyLit p.valuation) ∈
        (proofsF fuel t goal).map
          (fun q => goal.map (applyLit q.valuation)) :=
      List.mem_map_of_mem _ hp
    rw [hproofs] at hmem
    have := (dedupProofs_proj goal _ [] _).mp hmem
    rw [hall] at this
    exact this.1
  · intro ans
    constructor
    · intro hans
      rw [← hall] at hans
      have hmem := (dedupProofs_proj goal _ []
        ans).mpr ⟨hans, by simp⟩
      rw [← hproofs] at hmem
      obtain ⟨p, hp, hpe⟩ := List.mem_map.mp hmem
      exact ⟨p, hp, hpe⟩
    · rintro ⟨p, hp, rfl⟩
      have hmem : goal.map (applyLit p.valuation) ∈
          (proofsF fuel t goal).map
            (fun q => goal.map (applyLit q.valuation)) :=
        List.mem_map_of_mem _ hp
      rw [hproofs] at hmem
      have := (dedupProofs_proj goal _ [] _).mp hmem
      rw [hall] at this
      exact this.1

theorem proofs_solutions_agreement_witness :
    [runLit] ∈ solutionsListF 3 treeRun ↔
      ∃ p ∈ proofsF 3 treeRun [runLit],
        [runLit].map (applyLit p.valuation) = [runLit] :=
  (proofs_solutions_agreement [] [runLit] 2 [] 0 0 3 treeRun rfl).2 [runLit]

end Modus
